import Mathlib

/-!
Verification development for the text-to-video pagination engine in `mev.py`.

The engine's pure core (normalization, symbol substitution, width estimation,
greedy line wrapping, frame pagination, configuration derivation) is embedded
shallowly below.  Python strings are modelled as Lean `String`/`List Char`;
Python's arbitrary-precision integers as `Int`/`Nat`.  Python's float
expressions `int(width * 0.8)` and `font_size // 1.5` are modelled by the
exact values `Int.tdiv (4*w) 5` and `Int.fdiv (2*fs) 3`: for every operand in
the realistic range the IEEE-754 double rounding error is below half an ulp of
the exact rational value and cannot move it across an integer boundary, so
truncation/flooring of the float agrees with the exact rational computation.

Unicode character classes used by the source (`str.isalnum`, `str.isspace`,
`unicodedata.category`, `unicodedata.east_asian_width`) are modelled by
executable predicates that agree with CPython on every codepoint appearing in
this development (ASCII text, the symbol-map glyphs, whitespace); the wrapping
and pagination theorems are additionally proved for an arbitrary character
width function, so they do not depend on the width table.
-/

/-- Whitespace set of Python `str.isspace` / `str.split()` / `str.strip()`:
ASCII whitespace, the C1 separators, and the Unicode space characters. -/
def isPySpace (c : Char) : Bool :=
  decide (c = ' ' ∨ c = '\t' ∨ c = '\n' ∨ c = '\r' ∨ c = '\x0b' ∨ c = '\x0c' ∨
    c = '\x1c' ∨ c = '\x1d' ∨ c = '\x1e' ∨ c = '\x1f' ∨ c = '\x85' ∨
    c = '\xa0' ∨ c.toNat = 0x1680 ∨ (0x2000 ≤ c.toNat ∧ c.toNat ≤ 0x200a) ∨
    c.toNat = 0x2028 ∨ c.toNat = 0x2029 ∨ c.toNat = 0x202f ∨
    c.toNat = 0x205f ∨ c.toNat = 0x3000)

/-- Model of Python `str.isalnum` on a single character.  It is restricted to
ASCII letters and digits; every theorem below that quantifies over all input
strings is insensitive to the exact extent of this set, and it agrees with
CPython on all codepoints appearing in this development (in particular it is
false on every symbol-map glyph). -/
def pyIsAlnum (c : Char) : Bool :=
  c.isAlpha || c.isDigit

/-- The apostrophe character. -/
def apos : Char := Char.ofNat 39

/-- Allow-list of `generate_video` line 381: alphanumeric, whitespace, or one
of the five literal punctuation characters. -/
def allowedChar (c : Char) : Bool :=
  pyIsAlnum c || isPySpace c ||
    decide (c = '?' ∨ c = '!' ∨ c = apos ∨ c = '.' ∨ c = ',')

/-- The allow-list filter of `generate_video` line 381: every character
outside the allow-list is replaced by a single space. -/
def allowFilterStr (s : String) : String :=
  ⟨s.data.map (fun c => if allowedChar c then c else ' ')⟩

/-- Python `str.strip()` on a character list: drop whitespace from both ends. -/
def pyStripList (l : List Char) : List Char :=
  ((l.dropWhile isPySpace).reverse.dropWhile isPySpace).reverse

/-- Python `str.strip()`. -/
def pyStripStr (s : String) : String :=
  ⟨pyStripList s.data⟩

/-- Worker for Python `str.split()` (no separator): accumulate a current word
(in reverse) and emit maximal nonempty runs of non-whitespace characters. -/
def splitWsGo : List Char → List Char → List (List Char)
  | acc, [] => if acc = [] then [] else [acc.reverse]
  | acc, c :: cs =>
      if isPySpace c then
        if acc = [] then splitWsGo [] cs else acc.reverse :: splitWsGo [] cs
      else splitWsGo (c :: acc) cs

/-- Python `text.split()`: split on runs of whitespace, discarding empties. -/
def pySplitWsStr (s : String) : List String :=
  (splitWsGo [] s.data).map String.mk

/-- Worker for Python `str.replace`: scan left to right, replacing each
non-overlapping occurrence of `p` by `r`.  The fuel argument (initially the
length of the string) makes the recursion structural; each step consumes at
least one character, so the fuel never runs out on the initial call. -/
def replaceGo (p r : List Char) : Nat → List Char → List Char
  | _, [] => []
  | 0, s => s
  | fuel + 1, c :: cs =>
      if p ≠ [] ∧ p.isPrefixOf (c :: cs) then
        r ++ replaceGo p r fuel ((c :: cs).drop p.length)
      else c :: replaceGo p r fuel cs

/-- Python `s.replace(p, r)` for a nonempty pattern `p`. -/
def pyReplace (s p r : String) : String :=
  ⟨replaceGo p.data r.data s.data.length s.data⟩

/-- Worker for Python `str.split(sep)`: scan left to right, cutting at each
non-overlapping occurrence of `sep`.  Fuel as in `replaceGo`. -/
def splitOnGo (sep : List Char) : Nat → List Char → List Char → List (List Char)
  | _, acc, [] => [acc.reverse]
  | 0, acc, s => [acc.reverse ++ s]
  | fuel + 1, acc, c :: cs =>
      if sep ≠ [] ∧ sep.isPrefixOf (c :: cs) then
        acc.reverse :: splitOnGo sep fuel [] ((c :: cs).drop sep.length)
      else splitOnGo sep fuel (c :: acc) cs

/-- Python `s.split(sep)` for a nonempty separator. -/
def pySplitOnStr (sep s : String) : List String :=
  (splitOnGo sep.data s.data.length [] s.data).map String.mk

/-- The `emoji_map` dictionary of `convert_emojis_to_text`, in source
(insertion) order.  Keys are glyph sequences of one or more codepoints. -/
def emojiMap : List (String × String) :=
  [("👋", "[wave]"),
   ("😀", "[smile]"),
   ("😃", "[grin]"),
   ("😄", "[happy]"),
   ("😊", "[smile]"),
   ("🚀", "[rocket]"),
   ("🌟", "[star]"),
   ("💻", "[computer]"),
   ("🎉", "[party]"),
   ("🎨", "[art]"),
   ("🎭", "[theater]"),
   ("🎪", "[circus]"),
   ("🎯", "[target]"),
   ("🎲", "[dice]"),
   ("🎸", "[guitar]"),
   ("🎺", "[trumpet]"),
   ("🎻", "[violin]"),
   ("🔥", "[fire]"),
   ("💡", "[lightbulb]"),
   ("📱", "[phone]"),
   ("📧", "[email]"),
   ("📅", "[calendar]"),
   ("📈", "[chart]"),
   ("🏆", "[trophy]"),
   ("💧", "[water]"),
   ("☀️", "[sun]"),
   ("🌙", "[moon]"),
   ("⭐", "[star]"),
   ("❤️", "[heart]"),
   ("💛", "[yellow heart]"),
   ("💚", "[green heart]"),
   ("💙", "[blue heart]"),
   ("💜", "[purple heart]"),
   ("🌳", "[tree]"),
   ("🌲", "[evergreen]"),
   ("🍎", "[apple]"),
   ("🥪", "[sandwich]"),
   ("✨", "[sparkles]"),
   ("🖼️", "[picture]"),
   ("👨‍💻", "[man technologist]"),
   ("👩‍🚀", "[woman astronaut]"),
   ("🏳️‍🌈", "[rainbow flag]")]

/-- `convert_emojis_to_text` (mev.py lines 66-116): apply
`text = text.replace(emoji, replacement)` for each map entry in order. -/
def convert_emojis_to_text (s : String) : String :=
  emojiMap.foldl (fun t e => pyReplace t e.1 e.2) s

/-- Python `' '.join(words)`. -/
def joinWordsStr : List String → String
  | [] => ""
  | [w] => w
  | w :: ws => w ++ " " ++ joinWordsStr ws

/-- Python `'\n'.join(lines)`. -/
def joinNlStr : List String → String
  | [] => ""
  | [l] => l
  | l :: ls => l ++ "\n" ++ joinNlStr ls

/-- Visual width of a string under a per-character width function: the sum of
the character widths (mev.py lines 156-163 compute this for a word). -/
def strWidth (cw : Char → Nat) (s : String) : Nat :=
  (s.data.map cw).sum

/-- Codepoints of width 2 under the source's width model (Unicode category
`So`, or East-Asian width `F`/`W`).  The list covers the codepoints appearing
in this development: the base glyphs of the symbol map and a few wide CJK
characters.  ASCII characters, the variation selector and the zero-width
joiner are correctly outside it (each contributes 1 in CPython as well). -/
def wideChars : List Char :=
  ['👋', '😀', '😃', '😄', '😊', '🚀', '🌟', '💻', '🎉', '🎨', '🎭', '🎪',
   '🎯', '🎲', '🎸', '🎺', '🎻', '🔥', '💡', '📱', '📧', '📅', '📈', '🏆',
   '💧', '☀', '🌙', '⭐', '❤', '💛', '💚', '💙', '💜', '🌳', '🌲', '🍎',
   '🥪', '✨', '🖼', '👨', '👩', '🏳', '🌈', '中', '日', '本', '語']

/-- Concrete character width function of mev.py lines 156-163: 2 for a wide
character (category `So`, or East-Asian `F`/`W`), 1 otherwise. -/
def pyCharWidth (c : Char) : Nat :=
  if c ∈ wideChars then 2 else 1

/-- Configuration state of `TextToVideoGenerator.__init__` (mev.py lines
20-52), restricted to the fields the pagination engine reads.  Widths are
exact integers as explained in the file header. -/
structure TextToVideoGenerator where
  font_size : Int
  width : Int
  height : Int
  convert_emojis : Bool
  text_width : Int
  text_height : Int
  chars_per_line : Int
  lines_per_frame : Int
deriving DecidableEq, Repr

/-- `TextToVideoGenerator.__init__` (mev.py lines 20-52).
`text_width = int(width * 0.8)` is `Int.tdiv (4*w) 5` (float `int()`
truncates toward zero); `font_size // 1.5` is `Int.fdiv (2*fs) 3` (float
floor division); Python raises `ZeroDivisionError` when a divisor is zero,
modelled by `none`. -/
def tvInit (font_size width height : Int) (convert_emojis : Bool) :
    Option TextToVideoGenerator :=
  let text_width := Int.tdiv (4 * width) 5
  let text_height := Int.tdiv (4 * height) 5
  let fsDiv := Int.fdiv (2 * font_size) 3
  if fsDiv = 0 then none
  else if font_size + 10 = 0 then none
  else some
    { font_size := font_size
      width := width
      height := height
      convert_emojis := convert_emojis
      text_width := text_width
      text_height := text_height
      chars_per_line := max 1 (Int.fdiv text_width fsDiv)
      lines_per_frame := max 1 (Int.fdiv text_height (font_size + 10)) }

/-- The generator produced by the source's default arguments
(`font_size=32, width=1920, height=1080, convert_emojis=True`). -/
def defaultGen : TextToVideoGenerator :=
  { font_size := 32
    width := 1920
    height := 1080
    convert_emojis := true
    text_width := 1536
    text_height := 864
    chars_per_line := 73
    lines_per_frame := 20 }

/-- Loop of `wrap_text_with_emoji_support` (mev.py lines 152-175), with the
source's state: emitted `lines`, the `current_line` word list, and the
accumulated `current_width`. -/
def wrapGo (cw : Char → Nat) (width : Int) :
    List String → List String → List String → Nat → List String
  | [], lines, cur, _ => if cur ≠ [] then lines ++ [joinWordsStr cur] else lines
  | w :: rest, lines, cur, cwd =>
      let ww := strWidth cw w
      let sw := if cur ≠ [] then 1 else 0
      if ((cwd + ww + sw : Nat) : Int) > width ∧ cur ≠ [] then
        wrapGo cw width rest (lines ++ [joinWordsStr cur]) [w] ww
      else
        wrapGo cw width rest lines (cur ++ [w]) (cwd + ww + sw)

/-- `wrap_text_with_emoji_support` (mev.py lines 141-181), parameterized by
the character width function. -/
def wrap_text_with_emoji_support (cw : Char → Nat) (text : String) (width : Int) :
    List String :=
  wrapGo cw width (pySplitWsStr text) [] [] 0

/-- Visual width of a line given as a word list: sum of the word widths plus
one unit per joining space. -/
def specLineWidth (cw : Char → Nat) (ws : List String) : Nat :=
  (ws.map (strWidth cw)).sum + (ws.length - 1)

/-- Reference greedy wrap of the specification (section 4.3), written from the
spec's words: the current line's accumulated width is recomputed from the line
itself, a word is placed on a new line exactly when the line is non-empty and
the word (plus a joining space) would overflow the budget, and the final
non-empty line is closed. -/
def wrapSpecGo (cw : Char → Nat) (width : Int) :
    List String → List String → List String
  | [], cur => if cur = [] then [] else [joinWordsStr cur]
  | w :: rest, cur =>
      let sw := if cur = [] then 0 else 1
      if ((specLineWidth cw cur + strWidth cw w + sw : Nat) : Int) > width ∧ cur ≠ [] then
        joinWordsStr cur :: wrapSpecGo cw width rest [w]
      else
        wrapSpecGo cw width rest (cur ++ [w])

/-- Reference wrap contract of the specification: split on whitespace, then
greedily pack. -/
def wrapSpec (cw : Char → Nat) (text : String) (width : Int) : List String :=
  wrapSpecGo cw width (pySplitWsStr text) []

/-- State of the pagination loop of `split_text_into_frames`: emitted frame
texts, the `current_frame_lines` buffer, and `current_line_count`. -/
abbrev PagState := List String × List String × Nat

/-- Body of the inner line loop of `split_text_into_frames` (mev.py lines
215-224): close the current frame when adding one more line would exceed the
budget and the buffer is non-empty, then append the line. -/
def frameAddLine (L : Int) (st : PagState) (line : String) : PagState :=
  if ((st.2.2 : Int) + 1 > L ∧ st.2.1 ≠ []) then
    (st.1 ++ [joinNlStr st.2.1], [line], 1)
  else
    (st.1, st.2.1 ++ [line], st.2.2 + 1)

/-- Body of the paragraph loop of `split_text_into_frames` (mev.py lines
211-229): wrap the paragraph, feed each line to `frameAddLine`, then append a
blank spacer line when there is room. -/
def frameAddPara (cw : Char → Nat) (width L : Int) (st : PagState) (p : String) :
    PagState :=
  let st2 := (wrap_text_with_emoji_support cw p width).foldl (frameAddLine L) st
  if (st2.2.2 : Int) < L then (st2.1, st2.2.1 ++ [""], st2.2.2 + 1) else st2

/-- `split_text_into_frames` (mev.py lines 183-235), parameterized by the
character width function used by the wrapper. -/
def split_text_into_frames (g : TextToVideoGenerator) (cw : Char → Nat)
    (text : String) : List String :=
  let t := pyStripStr text
  if t = "" then [""]
  else
    let t2 := if g.convert_emojis then convert_emojis_to_text t else t
    let paragraphs := ((pySplitOnStr "\n\n" t2).map pyStripStr).filter
      (fun p => decide (p ≠ ""))
    let st := paragraphs.foldl (frameAddPara cw g.chars_per_line g.lines_per_frame)
      ([], [], 0)
    let frames := if st.2.1 ≠ [] then st.1 ++ [joinNlStr st.2.1] else st.1
    if frames = [] then [""] else frames

/-- The normalization performed by `generate_video` (mev.py lines 380-382)
before handing the text to pagination: allow-list filtering, then strip. -/
def generate_video_frames (g : TextToVideoGenerator) (cw : Char → Nat)
    (text_content : String) : List String :=
  split_text_into_frames g cw (pyStripStr (allowFilterStr text_content))

/-- Number of display lines in a frame text: newline count plus one. -/
def lineCountStr (s : String) : Nat :=
  s.data.count '\n' + 1

/-- The `chars_per_line` formula as the specification states it, in exact
arithmetic: `max 1 (floor ((0.8 * width) / (font_size / 1.5)))`, that is,
`max 1 (floor (6*width / (5*font_size)))`. -/
def specCharsPerLine (w fs : Int) : Int :=
  max 1 (Int.fdiv (6 * w) (5 * fs))

/-- The `lines_per_frame` formula as the specification states it, in exact
arithmetic: `max 1 (floor ((0.8 * height) / (font_size + 10)))`. -/
def specLinesPerFrame (h fs : Int) : Int :=
  max 1 (Int.fdiv (4 * h) (5 * (fs + 10)))

/-- The normalization pipeline applied by the program, as implemented: the
allow-list filter and strip of `generate_video` (lines 381-382) followed by
the strip and optional symbol substitution at the head of
`split_text_into_frames` (lines 194, 200-201). -/
def normalizeCode (sub : Bool) (s : String) : String :=
  let t := pyStripStr (pyStripStr (allowFilterStr s))
  if sub then convert_emojis_to_text t else t

/-- The normalization step in the order the specification prescribes (section
4.1): symbol substitution first (when enabled), then the allow-list filter,
then strip. -/
def normalizeSpecOrder (sub : Bool) (s : String) : String :=
  pyStripStr (allowFilterStr (if sub then convert_emojis_to_text s else s))

/-- A string contains no newline character. -/
def NoNl (s : String) : Prop :=
  '\n' ∉ s.data

/-- Two adjacent frame lines are not both blank. -/
def notBothBlank (a b : String) : Prop :=
  ¬(a = "" ∧ b = "")

/-- Structural shape of a frame produced by the pagination loop: it is the
newline-join of a non-empty list of newline-free lines whose first line is
non-blank and in which no two blank lines are adjacent. -/
def FrameShape (f : String) : Prop :=
  ∃ ls : List String, ls ≠ [] ∧ f = joinNlStr ls ∧ (∀ l ∈ ls, NoNl l) ∧
    ls.head? ≠ some "" ∧ List.Chain' notBothBlank ls

/-- A frame fits the line budget `L`: it is the newline-join of a non-empty
list of newline-free lines of length at most `L`. -/
def FrameFits (L : Int) (f : String) : Prop :=
  ∃ ls : List String, ls ≠ [] ∧ f = joinNlStr ls ∧ (∀ l ∈ ls, NoNl l) ∧
    (ls.length : Int) ≤ L

/-- Invariant of the pagination loop state for the line-budget claim: the
counter mirrors the buffer length, the buffer fits the budget and is
newline-free, and every emitted frame fits the budget. -/
def PagInv (L : Int) (st : PagState) : Prop :=
  st.2.2 = st.2.1.length ∧ ((st.2.1.length : Int) ≤ L) ∧
    (∀ l ∈ st.2.1, NoNl l) ∧ ∀ f ∈ st.1, FrameFits L f

/-- Invariant of the pagination loop state for the blank-line-structure
claim: the buffer starts with a non-blank line, has no two adjacent blank
lines and is newline-free, and every emitted frame has the frame shape. -/
def PagShapeInv (st : PagState) : Prop :=
  st.2.1.head? ≠ some "" ∧ List.Chain' notBothBlank st.2.1 ∧
    (∀ l ∈ st.2.1, NoNl l) ∧ ∀ f ∈ st.1, FrameShape f

/-! ## Sanity guards for the multi-codepoint glyph literals -/

/-- The symbol map has 42 entries, and the multi-codepoint glyph literals
retain their variation selectors and zero-width joiners. -/
theorem emojiMap_glyph_shapes :
    emojiMap.length = 42 ∧ ("👨‍💻" : String).data.length = 3 ∧
    ("☀️" : String).data.length = 2 ∧ ("🏳️‍🌈" : String).data.length = 4 ∧
    ("👩‍🚀" : String).data.length = 3 := by
  refine ⟨rfl, by decide, by decide, by decide, by decide⟩

/-! ## Integer division helpers -/

/-- Collapse two successive floor divisions of a nonnegative integer. -/
theorem int_ediv_ediv (a b c : Int) (ha : 0 ≤ a) (hb : 0 < b) (hc : 0 < c) :
    a / b / c = a / (b * c) := by
  lift a to ℕ using ha
  lift b to ℕ using hb.le
  lift c to ℕ using hc.le
  rw [← Int.natCast_mul, ← Int.natCast_div, ← Int.natCast_div,
    ← Int.natCast_div, Nat.div_div_eq_div_mul]

/-! ## C1: order of substitution and allow-list filtering in the pipeline -/

/-- Claim C1 evaluation: `generate_video` applies the allow-list filter (line
381) before `split_text_into_frames` performs symbol substitution (lines
200-201), so for the input `"👋 hi"` under the default configuration the
glyph is erased by the filter and the single produced frame is `"hi\n"` — it
does not contain `"[wave] hi"`. -/
theorem c1_pipeline_filter_runs_before_substitution :
    tvInit 32 1920 1080 true = some defaultGen ∧
    generate_video_frames defaultGen pyCharWidth "👋 hi" = ["hi\n"] := by
  exact ⟨by decide, by decide⟩

/-! ## C2: overlapping glyph sequences in the symbol map -/

/-- Claim C2 evaluation: the map entry for the longer sequence 👨‍💻 exists but
`convert_emojis_to_text` applies the earlier, shorter entry 💻 first (the dict
is iterated in insertion order), so the result is `"👨‍[computer]"` and
never `"[man technologist]"`. -/
theorem c2_shorter_glyph_substituted_inside_longer :
    ("👨‍💻", "[man technologist]") ∈ emojiMap ∧
    convert_emojis_to_text "👨‍💻" =
      "👨" ++ String.mk [Char.ofNat 0x200d] ++ "[computer]" ∧
    convert_emojis_to_text "👨‍💻" ≠ "[man technologist]" := by
  exact ⟨by decide, by decide, by decide⟩

/-! ## C3: derived configuration fields -/

/-- Claim C3 counterexample: already at the source's default configuration
(width 1920, font size 32) the code derives `chars_per_line = 73` while the
specification's exact formula gives 72; moreover `font_size = 1` makes the
derivation raise `ZeroDivisionError` instead of succeeding. -/
theorem c3_counterexample_default_config :
    (tvInit 32 1920 1080 true).map (fun g => g.chars_per_line) = some 73 ∧
    specCharsPerLine 1920 32 = 72 ∧ (73 : Int) ≠ 72 ∧
    tvInit 1 1920 1080 true = none := by
  exact ⟨by decide, by decide, by decide, by decide⟩

/-- Claim C3 as amended: for positive inputs, construction fails (with
`ZeroDivisionError`) exactly for `font_size = 1`; otherwise it succeeds and
derives `chars_per_line = max 1 (floor (floor (0.8*width) / floor
(font_size/1.5)))` (note the two inner floors, absent from the claim) and
`lines_per_frame = max 1 (floor (0.8*height / (font_size+10)))` (where the
inner floor collapses), and both fields are at least 1. -/
theorem c3_amended_derived_fields (fs w h : Int) (ce : Bool)
    (_hpw : 0 < w) (hh : 0 < h) (hfs : 0 < fs) :
    (tvInit fs w h ce = none ↔ fs = 1) ∧
    ∀ g, tvInit fs w h ce = some g →
      g.chars_per_line =
        max 1 (Int.fdiv (Int.tdiv (4 * w) 5) (Int.fdiv (2 * fs) 3)) ∧
      g.lines_per_frame = specLinesPerFrame h fs ∧
      1 ≤ g.chars_per_line ∧ 1 ≤ g.lines_per_frame := by
  have hd : Int.fdiv (2 * fs) 3 = (2 * fs) / 3 :=
    Int.fdiv_eq_ediv _ (by norm_num)
  have hzero : Int.fdiv (2 * fs) 3 = 0 ↔ fs = 1 := by rw [hd]; omega
  have hten : fs + 10 ≠ 0 := by omega
  constructor
  · by_cases h1 : fs = 1
    · subst h1
      simp [tvInit]
    · have : Int.fdiv (2 * fs) 3 ≠ 0 := fun h => h1 (hzero.mp h)
      simp [tvInit, this, hten, h1]
  · intro g hg
    have hne : Int.fdiv (2 * fs) 3 ≠ 0 := by
      intro h0
      rw [tvInit] at hg
      rw [if_pos h0] at hg
      exact Option.noConfusion hg
    rw [tvInit] at hg
    rw [if_neg hne, if_neg hten] at hg
    cases hg
    refine ⟨rfl, ?_, le_max_left _ _, le_max_left _ _⟩
    show max 1 (Int.fdiv (Int.tdiv (4 * h) 5) (fs + 10)) = specLinesPerFrame h fs
    rw [specLinesPerFrame]
    congr 1
    rw [Int.tdiv_eq_ediv (by omega) (by norm_num),
      Int.fdiv_eq_ediv _ (by omega), Int.fdiv_eq_ediv _ (by omega),
      int_ediv_ediv _ _ _ (by omega) (by norm_num) (by omega)]

/-- Witness for the amended C3 at the default configuration. -/
theorem c3_amended_derived_fields_witness :
    defaultGen.chars_per_line =
      max 1 (Int.fdiv (Int.tdiv (4 * 1920) 5) (Int.fdiv (2 * 32) 3)) ∧
    defaultGen.lines_per_frame = specLinesPerFrame 1080 32 ∧
    1 ≤ defaultGen.chars_per_line ∧ 1 ≤ defaultGen.lines_per_frame :=
  (c3_amended_derived_fields 32 1920 1080 true (by decide) (by decide)
    (by decide)).2 defaultGen (by decide)

/-! ## C4: absence of configuration validation -/

/-- Claim C4 counterexample: a non-positive width is accepted; construction
succeeds and silently floors `chars_per_line` to 1 instead of failing with an
`InvalidConfig`-style error. -/
theorem c4_counterexample_no_rejection :
    (tvInit 32 (-10) 10 true).map (fun g => g.chars_per_line) = some 1 ∧
    tvInit 32 (-10) 10 true ≠ none := by
  exact ⟨by decide, by decide⟩

/-- Claim C4 as amended: the constructor performs no validation at all.
Whenever neither divisor used by the derivation is zero, construction
succeeds — for non-positive width, height or font size as well — and the
derived fields are silently floored at 1 by the `max`. -/
theorem c4_amended_no_validation (fs w h : Int) (ce : Bool)
    (hd : Int.fdiv (2 * fs) 3 ≠ 0) (hfs : fs + 10 ≠ 0) :
    ∃ g, tvInit fs w h ce = some g ∧
      g.chars_per_line =
        max 1 (Int.fdiv (Int.tdiv (4 * w) 5) (Int.fdiv (2 * fs) 3)) ∧
      g.lines_per_frame =
        max 1 (Int.fdiv (Int.tdiv (4 * h) 5) (fs + 10)) := by
  have hsome : tvInit fs w h ce = some
      { font_size := fs
        width := w
        height := h
        convert_emojis := ce
        text_width := Int.tdiv (4 * w) 5
        text_height := Int.tdiv (4 * h) 5
        chars_per_line :=
          max 1 (Int.fdiv (Int.tdiv (4 * w) 5) (Int.fdiv (2 * fs) 3))
        lines_per_frame :=
          max 1 (Int.fdiv (Int.tdiv (4 * h) 5) (fs + 10)) } := by
    rw [tvInit]
    rw [if_neg hd, if_neg hfs]
  exact ⟨_, hsome, rfl, rfl⟩

/-- Witness for the amended C4 at the non-positive width `-10`. -/
theorem c4_amended_no_validation_witness :
    ∃ g, tvInit 32 (-10) 10 true = some g ∧
      g.chars_per_line =
        max 1 (Int.fdiv (Int.tdiv (4 * (-10)) 5) (Int.fdiv (2 * 32) 3)) ∧
      g.lines_per_frame =
        max 1 (Int.fdiv (Int.tdiv (4 * 10) 5) (32 + 10)) :=
  c4_amended_no_validation 32 (-10) 10 true (by decide) (by decide)

/-! ## C8: pagination always returns at least one frame -/

/-- The final guard of `split_text_into_frames` (line 235) makes the result
non-empty whatever the frame list is. -/
theorem length_ite_nil_ge_one (fr : List String) :
    1 ≤ (if fr = [] then [""] else fr).length := by
  by_cases h : fr = []
  · rw [if_pos h]
    exact Nat.le_refl 1
  · rw [if_neg h]
    exact List.length_pos.mpr h

/-- Claim C8: pagination never returns zero frames, and when the cleaned text
is empty it returns exactly one frame holding the empty string. -/
theorem c8_paginate_nonempty_output (g : TextToVideoGenerator)
    (cw : Char → Nat) (text : String) :
    1 ≤ (split_text_into_frames g cw text).length ∧
    (pyStripStr text = "" → split_text_into_frames g cw text = [""]) := by
  unfold split_text_into_frames
  by_cases h : pyStripStr text = ""
  · rw [if_pos h]
    exact ⟨Nat.le_refl 1, fun _ => rfl⟩
  · rw [if_neg h]
    exact ⟨length_ite_nil_ge_one _, fun hc => absurd hc h⟩

/-- Witness for C8 at a whitespace-only input. -/
theorem c8_paginate_nonempty_output_witness :
    1 ≤ (split_text_into_frames defaultGen pyCharWidth " ").length ∧
    split_text_into_frames defaultGen pyCharWidth " " = [""] :=
  ⟨(c8_paginate_nonempty_output defaultGen pyCharWidth " ").1,
   (c8_paginate_nonempty_output defaultGen pyCharWidth " ").2 (by decide)⟩

/-! ## Width bookkeeping for the wrapper -/

/-- String concatenation concatenates the underlying character lists. -/
theorem string_data_append (a b : String) : (a ++ b).data = a.data ++ b.data := rfl

/-- Visual width is additive under concatenation. -/
theorem strWidth_append (cw : Char → Nat) (a b : String) :
    strWidth cw (a ++ b) = strWidth cw a + strWidth cw b := by
  unfold strWidth
  rw [string_data_append, List.map_append, List.sum_append]

/-- Width of a one-word line. -/
theorem specLineWidth_singleton (cw : Char → Nat) (w : String) :
    specLineWidth cw [w] = strWidth cw w := by
  unfold specLineWidth
  simp

/-- Appending a word to a non-empty line adds the word's width plus one
joining space. -/
theorem specLineWidth_append_word (cw : Char → Nat) (ws : List String)
    (w : String) (h : ws ≠ []) :
    specLineWidth cw (ws ++ [w]) = specLineWidth cw ws + strWidth cw w + 1 := by
  unfold specLineWidth
  rw [List.map_append, List.sum_append, List.length_append]
  have := List.length_pos.mpr h
  simp
  omega

/-- The joined text of a non-empty line has exactly the line's visual width,
provided a space costs one unit. -/
theorem strWidth_joinWords (cw : Char → Nat) (h1 : cw ' ' = 1) :
    ∀ ws : List String, ws ≠ [] →
      strWidth cw (joinWordsStr ws) = specLineWidth cw ws := by
  intro ws
  induction ws with
  | nil => intro h; exact absurd rfl h
  | cons w ws ih =>
    intro _
    cases ws with
    | nil =>
      show strWidth cw w = specLineWidth cw [w]
      rw [specLineWidth_singleton]
    | cons x rest =>
      have hne : x :: rest ≠ [] := by simp
      show strWidth cw (w ++ " " ++ joinWordsStr (x :: rest)) = _
      rw [strWidth_append, strWidth_append, ih hne]
      have hsp : strWidth cw " " = 1 := by
        show ([' '].map cw).sum = 1
        simp [h1]
      rw [hsp]
      unfold specLineWidth
      simp only [List.map_cons, List.sum_cons, List.length_cons]
      omega

/-! ## The wrapper loop agrees with the specification's reference wrap -/

/-- Unfolding `wrapGo` on an empty word list. -/
theorem wrapGo_nil (cw : Char → Nat) (width : Int) (lines cur : List String)
    (cwd : Nat) :
    wrapGo cw width [] lines cur cwd =
      if cur ≠ [] then lines ++ [joinWordsStr cur] else lines := rfl

/-- Unfolding `wrapGo` on a word. -/
theorem wrapGo_cons (cw : Char → Nat) (width : Int) (w : String)
    (rest lines cur : List String) (cwd : Nat) :
    wrapGo cw width (w :: rest) lines cur cwd =
      if ((cwd + strWidth cw w + (if cur ≠ [] then 1 else 0) : Nat) : Int) >
            width ∧ cur ≠ [] then
        wrapGo cw width rest (lines ++ [joinWordsStr cur]) [w] (strWidth cw w)
      else
        wrapGo cw width rest lines (cur ++ [w])
          (cwd + strWidth cw w + (if cur ≠ [] then 1 else 0)) := by
  simp only [wrapGo]

/-- Unfolding `wrapSpecGo` on an empty word list. -/
theorem wrapSpecGo_nil (cw : Char → Nat) (width : Int) (cur : List String) :
    wrapSpecGo cw width [] cur =
      if cur = [] then [] else [joinWordsStr cur] := rfl

/-- Unfolding `wrapSpecGo` on a word. -/
theorem wrapSpecGo_cons (cw : Char → Nat) (width : Int) (w : String)
    (rest cur : List String) :
    wrapSpecGo cw width (w :: rest) cur =
      if ((specLineWidth cw cur + strWidth cw w +
            (if cur = [] then 0 else 1) : Nat) : Int) > width ∧ cur ≠ [] then
        joinWordsStr cur :: wrapSpecGo cw width rest [w]
      else wrapSpecGo cw width rest (cur ++ [w]) := by
  simp only [wrapSpecGo]

/-- The source's threaded `current_width` accumulator always equals the
visual width of the current line, so the wrapper loop emits exactly the lines
of the reference greedy algorithm. -/
theorem wrapGo_eq_spec (cw : Char → Nat) (width : Int) :
    ∀ (words lines cur : List String),
      wrapGo cw width words lines cur (specLineWidth cw cur) =
        lines ++ wrapSpecGo cw width words cur := by
  intro words
  induction words with
  | nil =>
    intro lines cur
    rw [wrapGo_nil, wrapSpecGo_nil]
    by_cases h : cur = []
    · simp [h]
    · simp [h]
  | cons w rest ih =>
    intro lines cur
    rw [wrapGo_cons, wrapSpecGo_cons]
    by_cases h : cur = []
    · subst h
      have c1 : ¬(((specLineWidth cw ([] : List String) + strWidth cw w +
          (if ([] : List String) ≠ [] then 1 else 0) : Nat) : Int) > width ∧
          ([] : List String) ≠ []) := fun hc => hc.2 rfl
      have c2 : ¬(((specLineWidth cw ([] : List String) + strWidth cw w +
          (if ([] : List String) = [] then 0 else 1) : Nat) : Int) > width ∧
          ([] : List String) ≠ []) := fun hc => hc.2 rfl
      rw [if_neg c1, if_neg c2, List.nil_append]
      convert ih lines [w] using 2
      simp [specLineWidth]
    · have hsw1 : (if cur ≠ [] then (1 : Nat) else 0) = 1 := if_pos h
      have hsw2 : (if cur = [] then (0 : Nat) else 1) = 1 := if_neg h
      rw [hsw1, hsw2]
      by_cases hcond :
          ((specLineWidth cw cur + strWidth cw w + 1 : Nat) : Int) > width
      · rw [if_pos ⟨hcond, h⟩, if_pos ⟨hcond, h⟩]
        have e : strWidth cw w = specLineWidth cw [w] :=
          (specLineWidth_singleton cw w).symm
        rw [e, ih]
        simp
      · rw [if_neg (fun hc => hcond hc.1), if_neg (fun hc => hcond hc.1)]
        have e : specLineWidth cw cur + strWidth cw w + 1 =
            specLineWidth cw (cur ++ [w]) :=
          (specLineWidth_append_word cw cur w h).symm
        rw [e, ih]

/-- Claim C5: the implemented wrapper equals the specification's reference
greedy algorithm (for every width function, text and budget), and on the
spec's concrete scenario it yields `["hello", "world"]` for budget 10. -/
theorem c5_wrap_matches_reference_greedy :
    (∀ (cw : Char → Nat) (text : String) (width : Int),
        wrap_text_with_emoji_support cw text width = wrapSpec cw text width) ∧
    wrap_text_with_emoji_support pyCharWidth "hello world" 10 =
      ["hello", "world"] := by
  constructor
  · intro cw text width
    unfold wrap_text_with_emoji_support wrapSpec
    have h := wrapGo_eq_spec cw width (pySplitWsStr text) [] []
    rw [List.nil_append] at h
    exact h
  · decide

/-! ## C6: width budget invariant and atomic overflow words -/

/-- Width invariant of the reference wrap: when every pending word fits the
budget and the current line fits the budget, every emitted line fits the
budget. -/
theorem wrapSpecGo_width_le (cw : Char → Nat) (width : Int) (h1 : cw ' ' = 1) :
    ∀ (words cur : List String),
      (∀ w ∈ words, (strWidth cw w : Int) ≤ width) →
      ((specLineWidth cw cur : Int) ≤ width) →
      ∀ l ∈ wrapSpecGo cw width words cur, (strWidth cw l : Int) ≤ width := by
  intro words
  induction words with
  | nil =>
    intro cur _ hcur l hl
    rw [wrapSpecGo_nil] at hl
    by_cases h : cur = []
    · rw [if_pos h] at hl
      exact absurd hl (List.not_mem_nil l)
    · rw [if_neg h] at hl
      have he : l = joinWordsStr cur := List.mem_singleton.mp hl
      subst he
      rw [strWidth_joinWords cw h1 cur h]
      exact hcur
  | cons w rest ih =>
    intro cur hwords hcur l hl
    have hwrest : ∀ x ∈ rest, (strWidth cw x : Int) ≤ width :=
      fun x hx => hwords x (List.mem_cons_of_mem w hx)
    have hwhead : (strWidth cw w : Int) ≤ width :=
      hwords w (List.mem_cons_self w rest)
    rw [wrapSpecGo_cons] at hl
    by_cases h : cur = []
    · subst h
      rw [if_neg (fun hc => hc.2 rfl), List.nil_append] at hl
      refine ih [w] hwrest ?_ l hl
      rw [specLineWidth_singleton]
      exact hwhead
    · have hsw : (if cur = [] then (0 : Nat) else 1) = 1 := if_neg h
      rw [hsw] at hl
      by_cases hcond :
          ((specLineWidth cw cur + strWidth cw w + 1 : Nat) : Int) > width
      · rw [if_pos ⟨hcond, h⟩] at hl
        rcases List.mem_cons.mp hl with he | hl2
        · subst he
          rw [strWidth_joinWords cw h1 cur h]
          exact hcur
        · refine ih [w] hwrest ?_ l hl2
          rw [specLineWidth_singleton]
          exact hwhead
      · rw [if_neg (fun hc => hcond hc.1)] at hl
        refine ih (cur ++ [w]) hwrest ?_ l hl
        rw [specLineWidth_append_word cw cur w h]
        omega
  
/-- Once the current line already exceeds the budget on its own, the next
step closes it unchanged, so its joined text is emitted as a line. -/
theorem wrapSpecGo_overflow_stays (cw : Char → Nat) (width : Int) :
    ∀ (rest cur : List String), cur ≠ [] →
      (specLineWidth cw cur : Int) > width →
      joinWordsStr cur ∈ wrapSpecGo cw width rest cur := by
  intro rest
  induction rest with
  | nil =>
    intro cur h _
    rw [wrapSpecGo_nil, if_neg h]
    exact List.mem_singleton.mpr rfl
  | cons w2 r ih =>
    intro cur h hgt
    rw [wrapSpecGo_cons]
    have hsw : (if cur = [] then (0 : Nat) else 1) = 1 := if_neg h
    rw [hsw]
    have hcond :
        ((specLineWidth cw cur + strWidth cw w2 + 1 : Nat) : Int) > width := by
      omega
    rw [if_pos ⟨hcond, h⟩]
    exact List.mem_cons_self _ _

/-- A word wider than the budget is emitted as a line of its own. -/
theorem wrapSpecGo_overflow_mem (cw : Char → Nat) (width : Int) :
    ∀ (words cur : List String) (w : String), w ∈ words →
      (strWidth cw w : Int) > width →
      w ∈ wrapSpecGo cw width words cur := by
  intro words
  induction words with
  | nil =>
    intro cur w hw _
    exact absurd hw (List.not_mem_nil w)
  | cons x rest ih =>
    intro cur w hw hgt
    rw [wrapSpecGo_cons]
    rcases List.mem_cons.mp hw with he | hmem
    · subst he
      have halone : joinWordsStr [w] ∈ wrapSpecGo cw width rest [w] := by
        refine wrapSpecGo_overflow_stays cw width rest [w] (by simp) ?_
        rw [specLineWidth_singleton]
        exact hgt
      rw [show joinWordsStr [w] = w from rfl] at halone
      by_cases h : cur = []
      · subst h
        rw [if_neg (fun hc => hc.2 rfl), List.nil_append]
        exact halone
      · have hsw : (if cur = [] then (0 : Nat) else 1) = 1 := if_neg h
        rw [hsw]
        have hcond :
            ((specLineWidth cw cur + strWidth cw w + 1 : Nat) : Int) > width := by
          omega
        rw [if_pos ⟨hcond, h⟩]
        exact List.mem_cons_of_mem _ halone
    · by_cases h : cur = []
      · subst h
        rw [if_neg (fun hc => hc.2 rfl), List.nil_append]
        exact ih [x] w hmem hgt
      · have hsw : (if cur = [] then (0 : Nat) else 1) = 1 := if_neg h
        rw [hsw]
        by_cases hcond :
            ((specLineWidth cw cur + strWidth cw x + 1 : Nat) : Int) > width
        · rw [if_pos ⟨hcond, h⟩]
          exact List.mem_cons_of_mem _ (ih [x] w hmem hgt)
        · rw [if_neg (fun hc => hcond hc.1)]
          exact ih (cur ++ [x]) w hmem hgt

/-- The implemented wrapper, rewritten through the reference wrap. -/
theorem wrap_eq_wrapSpecGo (cw : Char → Nat) (text : String) (width : Int) :
    wrap_text_with_emoji_support cw text width =
      wrapSpecGo cw width (pySplitWsStr text) [] := by
  unfold wrap_text_with_emoji_support
  have h := wrapGo_eq_spec cw width (pySplitWsStr text) [] []
  rw [List.nil_append] at h
  exact h

/-- Claim C6: for a positive budget, if no word of the text is wider than the
budget then every wrapped line (joining spaces included) fits the budget; and
a word wider than the budget always appears as a line of its own, unsplit. -/
theorem c6_wrap_width_budget_and_atomic_overflow (cw : Char → Nat)
    (text : String) (width : Int) (h1 : cw ' ' = 1) (hpos : 0 < width) :
    ((∀ w ∈ pySplitWsStr text, (strWidth cw w : Int) ≤ width) →
      ∀ l ∈ wrap_text_with_emoji_support cw text width,
        (strWidth cw l : Int) ≤ width) ∧
    (∀ w ∈ pySplitWsStr text, (strWidth cw w : Int) > width →
      w ∈ wrap_text_with_emoji_support cw text width) := by
  constructor
  · intro hwords l hl
    rw [wrap_eq_wrapSpecGo] at hl
    refine wrapSpecGo_width_le cw width h1 (pySplitWsStr text) [] hwords ?_ l hl
    have hz : specLineWidth cw [] = 0 := by simp [specLineWidth]
    rw [hz]
    omega
  · intro w hmem hgt
    rw [wrap_eq_wrapSpecGo]
    exact wrapSpecGo_overflow_mem cw width (pySplitWsStr text) [] w hmem hgt

/-- Witness for C6: with the concrete width table, the line `"hello"` of the
spec's scenario fits the budget 10, and an overlong word occupies a line of
its own. -/
theorem c6_wrap_width_budget_witness :
    (strWidth pyCharWidth "hello" : Int) ≤ 10 ∧
    "extraordinarily" ∈
      wrap_text_with_emoji_support pyCharWidth "an extraordinarily long word" 10 :=
  ⟨(c6_wrap_width_budget_and_atomic_overflow pyCharWidth "hello world" 10
      (by decide) (by decide)).1 (by decide) "hello" (by decide),
   (c6_wrap_width_budget_and_atomic_overflow pyCharWidth
      "an extraordinarily long word" 10 (by decide) (by decide)).2
      "extraordinarily" (by decide) (by decide)⟩

/-! ## C9: idempotence of normalization -/

/-- The head of `dropWhile p` never satisfies `p`. -/
theorem head?_dropWhile_false {α : Type} (p : α → Bool) (l : List α) (c : α)
    (h : (l.dropWhile p).head? = some c) : p c = false := by
  have hm := List.head?_dropWhile_not p l
  rw [h] at hm
  exact hm

/-- `dropWhile` fixes a list whose head does not satisfy the predicate. -/
theorem dropWhile_fixed_of_head {α : Type} (p : α → Bool) (l : List α)
    (h : ∀ c, l.head? = some c → p c = false) : l.dropWhile p = l := by
  cases l with
  | nil => rfl
  | cons a as =>
    refine List.dropWhile_cons_of_neg ?_
    have := h a rfl
    simp [this]

/-- A nonempty prefix has the same head as the full list. -/
theorem head?_of_isPrefix {α : Type} {x y : List α} (h : x <+: y) (c : α)
    (hc : x.head? = some c) : y.head? = some c := by
  rcases h with ⟨t, rfl⟩
  cases x with
  | nil => exact absurd hc (by simp)
  | cons a as =>
    simp only [List.head?_cons, Option.some.injEq] at hc
    subst hc
    rfl

/-- The stripped list is a prefix of the front-stripped list. -/
theorem pyStripList_isPrefix (l : List Char) :
    pyStripList l <+: l.dropWhile isPySpace := by
  unfold pyStripList
  have hs : ((l.dropWhile isPySpace).reverse.dropWhile isPySpace) <:+
      (l.dropWhile isPySpace).reverse := List.dropWhile_suffix _
  have := List.reverse_prefix.mpr hs
  rwa [List.reverse_reverse] at this

/-- The first character of a stripped list is not whitespace. -/
theorem pyStripList_head_not_space (l : List Char) (c : Char)
    (h : (pyStripList l).head? = some c) : isPySpace c = false := by
  have hA : (l.dropWhile isPySpace).head? = some c :=
    head?_of_isPrefix (pyStripList_isPrefix l) c h
  exact head?_dropWhile_false isPySpace l c hA

/-- The last character of a stripped list is not whitespace. -/
theorem pyStripList_getLast_not_space (l : List Char) (c : Char)
    (h : (pyStripList l).getLast? = some c) : isPySpace c = false := by
  unfold pyStripList at h
  rw [List.getLast?_reverse] at h
  exact head?_dropWhile_false isPySpace _ c h

/-- Stripping fixes a list whose two ends are not whitespace. -/
theorem pyStripList_fixed (l : List Char)
    (hh : ∀ c, l.head? = some c → isPySpace c = false)
    (hl : ∀ c, l.getLast? = some c → isPySpace c = false) :
    pyStripList l = l := by
  unfold pyStripList
  rw [dropWhile_fixed_of_head isPySpace l hh]
  rw [dropWhile_fixed_of_head isPySpace l.reverse
    (fun c hc => hl c (by rwa [List.head?_reverse] at hc))]
  exact List.reverse_reverse l

/-- Python `strip` is idempotent. -/
theorem pyStripList_idem (l : List Char) :
    pyStripList (pyStripList l) = pyStripList l :=
  pyStripList_fixed (pyStripList l)
    (fun c h => pyStripList_head_not_space l c h)
    (fun c h => pyStripList_getLast_not_space l c h)

/-- Stripping only removes characters. -/
theorem pyStripList_subset (l : List Char) : ∀ c ∈ pyStripList l, c ∈ l := by
  intro c hc
  unfold pyStripList at hc
  rw [List.mem_reverse] at hc
  have h1 := (List.dropWhile_sublist isPySpace).subset hc
  rw [List.mem_reverse] at h1
  exact (List.dropWhile_sublist isPySpace).subset h1

/-- Python `strip` is idempotent, on strings. -/
theorem pyStripStr_idem (s : String) :
    pyStripStr (pyStripStr s) = pyStripStr s := by
  show (⟨pyStripList (pyStripList s.data)⟩ : String) = ⟨pyStripList s.data⟩
  rw [pyStripList_idem]

/-- Characters of a stripped string come from the original string. -/
theorem pyStripStr_chars (s : String) :
    ∀ c ∈ (pyStripStr s).data, c ∈ s.data :=
  pyStripList_subset s.data

/-- Every character of the filtered text is on the allow-list. -/
theorem allowFilterStr_chars (s : String) :
    ∀ c ∈ (allowFilterStr s).data, allowedChar c = true := by
  intro c hc
  rcases List.mem_map.mp hc with ⟨d, _, he⟩
  by_cases h : allowedChar d
  · rw [if_pos h] at he
    exact he ▸ h
  · rw [if_neg h] at he
    subst he
    decide

/-- The filter fixes a string whose characters are all on the allow-list. -/
theorem allowFilterStr_fixes (s : String)
    (h : ∀ c ∈ s.data, allowedChar c = true) : allowFilterStr s = s := by
  show (⟨s.data.map (fun c => if allowedChar c then c else ' ')⟩ : String) = s
  have h2 : ∀ c ∈ s.data,
      (fun c => if allowedChar c then c else ' ') c = id c := by
    intro c hc
    simp [h c hc]
  rw [List.map_congr_left h2, List.map_id]

/-- `str.replace` leaves a string unchanged when the pattern contains a
character the string cannot contain. -/
theorem replaceGo_no_occurrence (p r : List Char)
    (hbad : ∃ c ∈ p, allowedChar c = false) :
    ∀ (fuel : Nat) (s : List Char), (∀ c ∈ s, allowedChar c = true) →
      replaceGo p r fuel s = s := by
  intro fuel
  induction fuel with
  | zero =>
    intro s _
    cases s <;> rfl
  | succ n ih =>
    intro s hs
    cases s with
    | nil => rfl
    | cons c cs =>
      have hnot : ¬(p ≠ [] ∧ p.isPrefixOf (c :: cs)) := by
        rintro ⟨-, hpre⟩
        rcases hbad with ⟨b, hbp, hbf⟩
        have hbm : b ∈ c :: cs :=
          (List.isPrefixOf_iff_prefix.mp hpre).subset hbp
        have := hs b hbm
        rw [hbf] at this
        exact Bool.noConfusion this
      show (if p ≠ [] ∧ p.isPrefixOf (c :: cs) then
          r ++ replaceGo p r n ((c :: cs).drop p.length)
        else c :: replaceGo p r n cs) = c :: cs
      rw [if_neg hnot]
      rw [ih cs (fun x hx => hs x (List.mem_cons_of_mem c hx))]

/-- The symbol substitution pass leaves a fully allow-listed string unchanged:
every glyph sequence in the map contains a character outside the allow-list. -/
theorem foldl_replace_fixes (m : List (String × String))
    (hm : ∀ e ∈ m, ∃ c ∈ e.1.data, allowedChar c = false) :
    ∀ s : String, (∀ c ∈ s.data, allowedChar c = true) →
      m.foldl (fun t e => pyReplace t e.1 e.2) s = s := by
  induction m with
  | nil =>
    intro s _
    rfl
  | cons e rest ih =>
    intro s hs
    rw [List.foldl_cons]
    have hstep : pyReplace s e.1 e.2 = s := by
      show (⟨replaceGo e.1.data e.2.data s.data.length s.data⟩ : String) = s
      rw [replaceGo_no_occurrence e.1.data e.2.data
        (hm e (List.mem_cons_self e rest)) s.data.length s.data hs]
    rw [hstep]
    exact ih (fun x hx => hm x (List.mem_cons_of_mem e hx)) s hs

/-- `convert_emojis_to_text` fixes fully allow-listed strings. -/
theorem convert_fixes_allowed (s : String)
    (h : ∀ c ∈ s.data, allowedChar c = true) :
    convert_emojis_to_text s = s :=
  foldl_replace_fixes emojiMap (by decide) s h

/-- Characters surviving filter-then-strip are all on the allow-list. -/
theorem strip_filter_chars (x : String) :
    ∀ c ∈ (pyStripStr (allowFilterStr x)).data, allowedChar c = true :=
  fun c hc => allowFilterStr_chars x c (pyStripStr_chars _ c hc)

/-- The program's normalization collapses to filter-then-strip: the double
strip is idempotent, and substitution finds no glyph in filtered text. -/
theorem normalizeCode_eq (sub : Bool) (x : String) :
    normalizeCode sub x = pyStripStr (allowFilterStr x) := by
  unfold normalizeCode
  rw [pyStripStr_idem]
  cases sub with
  | false => rfl
  | true =>
    simp only [if_true]
    exact convert_fixes_allowed _ (strip_filter_chars x)

/-- Claim C9: the normalization step is idempotent — both in the order the
program applies it (filter, strip, then substitution) and in the order the
specification states it (substitution, filter, then strip). -/
theorem c9_normalize_idempotent (sub : Bool) (x : String) :
    normalizeCode sub (normalizeCode sub x) = normalizeCode sub x ∧
    normalizeSpecOrder sub (normalizeSpecOrder sub x) =
      normalizeSpecOrder sub x := by
  constructor
  · rw [normalizeCode_eq, normalizeCode_eq]
    rw [allowFilterStr_fixes _ (strip_filter_chars x)]
    exact pyStripStr_idem _
  · unfold normalizeSpecOrder
    have hconv : (if sub then
        convert_emojis_to_text
          (pyStripStr (allowFilterStr (if sub then convert_emojis_to_text x else x)))
      else pyStripStr (allowFilterStr (if sub then convert_emojis_to_text x else x))) =
        pyStripStr (allowFilterStr (if sub then convert_emojis_to_text x else x)) := by
      cases sub with
      | false => rfl
      | true =>
        simp only [if_true]
        exact convert_fixes_allowed _ (strip_filter_chars _)
    rw [hconv]
    rw [allowFilterStr_fixes _ (strip_filter_chars _)]
    exact pyStripStr_idem _

/-! ## Structure of the wrapper's output lines -/

/-- Every line emitted by the wrapper loop either was already in the
accumulator or is the space-join of a non-empty batch of words drawn from the
current line or the remaining words. -/
theorem wrapGo_mem (cw : Char → Nat) (width : Int) :
    ∀ (words lines cur : List String) (cwd : Nat) (l : String),
      l ∈ wrapGo cw width words lines cur cwd →
      l ∈ lines ∨ ∃ ws : List String, ws ≠ [] ∧
        (∀ w ∈ ws, w ∈ cur ∨ w ∈ words) ∧ l = joinWordsStr ws := by
  intro words
  induction words with
  | nil =>
    intro lines cur cwd l hl
    rw [wrapGo_nil] at hl
    by_cases h : cur = []
    · rw [if_neg (fun hne => hne h)] at hl
      exact Or.inl hl
    · rw [if_pos h] at hl
      rcases List.mem_append.mp hl with h1 | h1
      · exact Or.inl h1
      · exact Or.inr ⟨cur, h, fun w hw => Or.inl hw, List.mem_singleton.mp h1⟩
  | cons w rest ih =>
    intro lines cur cwd l hl
    rw [wrapGo_cons] at hl
    have hclose : ∀ hC : cur ≠ [],
        l ∈ wrapGo cw width rest (lines ++ [joinWordsStr cur]) [w]
          (strWidth cw w) →
        l ∈ lines ∨ ∃ ws : List String, ws ≠ [] ∧
          (∀ x ∈ ws, x ∈ cur ∨ x ∈ w :: rest) ∧ l = joinWordsStr ws := by
      intro hC hl2
      rcases ih _ _ _ l hl2 with h1 | ⟨ws, hne, hmem, he⟩
      · rcases List.mem_append.mp h1 with h2 | h2
        · exact Or.inl h2
        · exact Or.inr ⟨cur, hC, fun x hx => Or.inl hx,
            List.mem_singleton.mp h2⟩
      · refine Or.inr ⟨ws, hne, ?_, he⟩
        intro x hx
        rcases hmem x hx with h2 | h2
        · exact Or.inr (List.mem_cons.mpr (Or.inl (List.mem_singleton.mp h2)))
        · exact Or.inr (List.mem_cons_of_mem w h2)
    have hext : ∀ cwd2 : Nat,
        l ∈ wrapGo cw width rest lines (cur ++ [w]) cwd2 →
        l ∈ lines ∨ ∃ ws : List String, ws ≠ [] ∧
          (∀ x ∈ ws, x ∈ cur ∨ x ∈ w :: rest) ∧ l = joinWordsStr ws := by
      intro cwd2 hl2
      rcases ih _ _ _ l hl2 with h1 | ⟨ws, hne, hmem, he⟩
      · exact Or.inl h1
      · refine Or.inr ⟨ws, hne, ?_, he⟩
        intro x hx
        rcases hmem x hx with h2 | h2
        · rcases List.mem_append.mp h2 with h3 | h3
          · exact Or.inl h3
          · exact Or.inr (List.mem_cons.mpr (Or.inl (List.mem_singleton.mp h3)))
        · exact Or.inr (List.mem_cons_of_mem w h2)
    split at hl
    · split at hl
      · rename_i hC
        exact hclose hC.2 hl
      · exact hext _ hl
    · split at hl
      · rename_i hC
        exact hclose hC.2 hl
      · exact hext _ hl

/-- Words produced by Python `split()` are non-empty and whitespace-free. -/
theorem splitWsGo_words : ∀ (l acc : List Char),
    (∀ c ∈ acc, isPySpace c = false) →
    ∀ w ∈ splitWsGo acc l, w ≠ [] ∧ ∀ c ∈ w, isPySpace c = false := by
  intro l
  induction l with
  | nil =>
    intro acc hacc w hw
    rw [show splitWsGo acc [] = if acc = [] then [] else [acc.reverse]
      from rfl] at hw
    by_cases h : acc = []
    · rw [if_pos h] at hw
      exact absurd hw (List.not_mem_nil w)
    · rw [if_neg h] at hw
      have he := List.mem_singleton.mp hw
      subst he
      refine ⟨by simpa using h, ?_⟩
      intro c hc
      exact hacc c (List.mem_reverse.mp hc)
  | cons c cs ih =>
    intro acc hacc w hw
    rw [show splitWsGo acc (c :: cs) =
        if isPySpace c = true then
          (if acc = [] then splitWsGo [] cs
           else acc.reverse :: splitWsGo [] cs)
        else splitWsGo (c :: acc) cs from rfl] at hw
    by_cases hsp : isPySpace c = true
    · rw [if_pos hsp] at hw
      by_cases h : acc = []
      · rw [if_pos h] at hw
        exact ih [] (fun x hx => absurd hx (List.not_mem_nil x)) w hw
      · rw [if_neg h] at hw
        rcases List.mem_cons.mp hw with he | hm
        · subst he
          refine ⟨by simpa using h, ?_⟩
          intro x hx
          exact hacc x (List.mem_reverse.mp hx)
        · exact ih [] (fun x hx => absurd hx (List.not_mem_nil x)) w hm
    · rw [if_neg hsp] at hw
      refine ih (c :: acc) ?_ w hw
      intro x hx
      rcases List.mem_cons.mp hx with he | hxm
      · subst he
        simpa using hsp
      · exact hacc x hxm

/-- Words of `text.split()` at string level: non-empty and whitespace-free. -/
theorem pySplitWs_words (s : String) :
    ∀ w ∈ pySplitWsStr s, w.data ≠ [] ∧ ∀ c ∈ w.data, isPySpace c = false := by
  intro w hw
  rcases List.mem_map.mp hw with ⟨wl, hwl, he⟩
  subst he
  exact splitWsGo_words s.data [] (fun c hc => absurd hc (List.not_mem_nil c))
    wl hwl

/-- A character of a space-join of whitespace-free words is a space or is not
whitespace. -/
theorem joinWords_chars : ∀ (ws : List String),
    (∀ w ∈ ws, ∀ c ∈ w.data, isPySpace c = false) →
    ∀ c ∈ (joinWordsStr ws).data, c = ' ' ∨ isPySpace c = false := by
  intro ws
  induction ws with
  | nil =>
    intro _ c hc
    exact absurd hc (List.not_mem_nil c)
  | cons w ws ih =>
    intro h c hc
    cases ws with
    | nil => exact Or.inr (h w (List.mem_cons_self _ _) c hc)
    | cons x rest =>
      have hc2 : c ∈ (w ++ " ").data ++ (joinWordsStr (x :: rest)).data := hc
      rcases List.mem_append.mp hc2 with h1 | h1
      · rcases List.mem_append.mp (show c ∈ w.data ++ [' '] from h1) with h2 | h2
        · exact Or.inr (h w (List.mem_cons_self _ _) c h2)
        · exact Or.inl (List.mem_singleton.mp h2)
      · exact ih (fun w2 hw2 => h w2 (List.mem_cons_of_mem w hw2)) c h1

/-- A space-join of non-empty words is non-empty. -/
theorem joinWords_data_ne_nil : ∀ (ws : List String), ws ≠ [] →
    (∀ w ∈ ws, w.data ≠ []) → (joinWordsStr ws).data ≠ [] := by
  intro ws
  cases ws with
  | nil =>
    intro h
    exact absurd rfl h
  | cons w ws =>
    intro _ h
    cases ws with
    | nil => exact h w (List.mem_cons_self _ _)
    | cons x rest =>
      intro he
      have h2 : (w ++ " ").data ++ (joinWordsStr (x :: rest)).data = [] := he
      rcases List.append_eq_nil.mp h2 with ⟨h3, -⟩
      rcases List.append_eq_nil.mp (show w.data ++ [' '] = [] from h3)
        with ⟨-, h5⟩
      exact List.noConfusion h5

/-- A string with a non-empty character list is not the empty string. -/
theorem string_ne_empty_of_data (s : String) (h : s.data ≠ []) : s ≠ "" :=
  fun he => h (by rw [he])

/-- Every line the wrapper emits is non-blank and newline-free. -/
theorem wrap_lines_ok (cw : Char → Nat) (p : String) (width : Int) :
    ∀ l ∈ wrap_text_with_emoji_support cw p width, l ≠ "" ∧ NoNl l := by
  intro l hl
  rw [wrap_text_with_emoji_support] at hl
  rcases wrapGo_mem cw width (pySplitWsStr p) [] [] 0 l hl
    with h1 | ⟨ws, hne, hmem, he⟩
  · exact absurd h1 (List.not_mem_nil l)
  · subst he
    have hwords : ∀ w ∈ ws, w ∈ pySplitWsStr p := by
      intro w hw
      rcases hmem w hw with h2 | h2
      · exact absurd h2 (List.not_mem_nil w)
      · exact h2
    constructor
    · refine string_ne_empty_of_data _ ?_
      refine joinWords_data_ne_nil ws hne ?_
      intro w hw
      exact (pySplitWs_words p w (hwords w hw)).1
    · intro hnl
      rcases joinWords_chars ws
          (fun w hw => (pySplitWs_words p w (hwords w hw)).2) '\n' hnl
        with he2 | he2
      · exact absurd he2 (by decide)
      · exact absurd he2 (by decide)

/-- The wrapper loop cannot return the empty list when the current line is
non-empty. -/
theorem wrapGo_ne_nil (cw : Char → Nat) (width : Int) :
    ∀ (words lines cur : List String) (cwd : Nat), cur ≠ [] →
      wrapGo cw width words lines cur cwd ≠ [] := by
  intro words
  induction words with
  | nil =>
    intro lines cur cwd h
    rw [wrapGo_nil, if_pos h]
    simp
  | cons w rest ih =>
    intro lines cur cwd h
    rw [wrapGo_cons]
    split <;> (try split) <;> exact ih _ _ _ (by simp)

/-- The wrapper emits at least one line when the text has at least one word. -/
theorem wrap_ne_nil (cw : Char → Nat) (p : String) (width : Int)
    (h : pySplitWsStr p ≠ []) : wrap_text_with_emoji_support cw p width ≠ [] := by
  rw [wrap_text_with_emoji_support]
  cases hw : pySplitWsStr p with
  | nil => exact absurd hw h
  | cons w rest =>
    rw [wrapGo_cons]
    split <;> (try split) <;>
      exact wrapGo_ne_nil cw width rest _ _ _ (by simp)

/-! ## C7: the line budget invariant of pagination -/

/-- A configuration built by `__init__` has a line budget of at least 1. -/
theorem tvInit_lines_ge_one (fs w h : Int) (ce : Bool)
    (g : TextToVideoGenerator) (hg : tvInit fs w h ce = some g) :
    1 ≤ g.lines_per_frame := by
  rw [tvInit] at hg
  split at hg
  · exact Option.noConfusion hg
  · split at hg
    · exact Option.noConfusion hg
    · cases hg
      exact le_max_left _ _

/-- The empty string holds no newline. -/
theorem noNl_empty : NoNl "" := fun h => absurd h (List.not_mem_nil _)

/-- Unfolding `frameAddLine`. -/
theorem frameAddLine_eq (L : Int) (st : PagState) (line : String) :
    frameAddLine L st line =
      if ((st.2.2 : Int) + 1 > L ∧ st.2.1 ≠ []) then
        (st.1 ++ [joinNlStr st.2.1], [line], 1)
      else (st.1, st.2.1 ++ [line], st.2.2 + 1) := rfl

/-- `frameAddLine` preserves the line-budget invariant. -/
theorem frameAddLine_inv7 (L : Int) (hL : 1 ≤ L) (st : PagState)
    (line : String) (hinv : PagInv L st) (hline : NoNl line) :
    PagInv L (frameAddLine L st line) := by
  obtain ⟨hc, hlen, hcur, hfr⟩ := hinv
  rw [frameAddLine_eq]
  split
  · rename_i hC
    refine ⟨rfl, ?_, ?_, ?_⟩
    · simpa using hL
    · intro l hl
      have he := List.mem_singleton.mp hl
      subst he
      exact hline
    · intro f hf
      rcases List.mem_append.mp hf with h1 | h1
      · exact hfr f h1
      · have he : f = joinNlStr st.2.1 := List.mem_singleton.mp h1
        subst he
        exact ⟨st.2.1, hC.2, rfl, hcur, hlen⟩
  · rename_i hC
    refine ⟨?_, ?_, ?_, hfr⟩
    · simp [hc]
    · rw [List.length_append]
      rcases not_and_or.mp hC with h1 | h1
      · rw [hc] at h1
        simp only [List.length_cons, List.length_nil]
        omega
      · have he : st.2.1 = [] := not_not.mp h1
        rw [he]
        simp only [List.length_nil, List.length_cons]
        omega
    · intro l hl
      rcases List.mem_append.mp hl with h1 | h1
      · exact hcur l h1
      · have he := List.mem_singleton.mp h1
        subst he
        exact hline

/-- The inner line loop preserves the line-budget invariant. -/
theorem foldl_addLine_inv7 (L : Int) (hL : 1 ≤ L) :
    ∀ (lines : List String) (st : PagState), PagInv L st →
      (∀ l ∈ lines, NoNl l) →
      PagInv L (lines.foldl (frameAddLine L) st) := by
  intro lines
  induction lines with
  | nil =>
    intro st h _
    exact h
  | cons l ls ih =>
    intro st h hl
    rw [List.foldl_cons]
    exact ih _ (frameAddLine_inv7 L hL st l h (hl l (List.mem_cons_self _ _)))
      (fun x hx => hl x (List.mem_cons_of_mem l hx))

/-- `frameAddPara` preserves the line-budget invariant: the spacer is only
appended when the capacity check leaves room. -/
theorem frameAddPara_inv7 (cw : Char → Nat) (width L : Int) (hL : 1 ≤ L)
    (st : PagState) (p : String) (hinv : PagInv L st) :
    PagInv L (frameAddPara cw width L st p) := by
  have h2 := foldl_addLine_inv7 L hL (wrap_text_with_emoji_support cw p width)
    st hinv (fun l hl => (wrap_lines_ok cw p width l hl).2)
  rw [frameAddPara]
  split
  · rename_i hlt
    obtain ⟨hc, hlen, hcur, hfr⟩ := h2
    refine ⟨?_, ?_, ?_, hfr⟩
    · simp [hc]
    · rw [List.length_append]
      rw [hc] at hlt
      simp only [List.length_cons, List.length_nil]
      omega
    · intro l hl
      rcases List.mem_append.mp hl with h1 | h1
      · exact hcur l h1
      · have he := List.mem_singleton.mp h1
        subst he
        exact noNl_empty
  · exact h2

/-- The paragraph loop preserves the line-budget invariant. -/
theorem foldl_addPara_inv7 (cw : Char → Nat) (width L : Int) (hL : 1 ≤ L) :
    ∀ (ps : List String) (st : PagState), PagInv L st →
      PagInv L (ps.foldl (frameAddPara cw width L) st) := by
  intro ps
  induction ps with
  | nil =>
    intro st h
    exact h
  | cons p rest ih =>
    intro st h
    rw [List.foldl_cons]
    exact ih _ (frameAddPara_inv7 cw width L hL st p h)

/-- Newline count of a join of newline-free lines. -/
theorem count_nl_joinNl : ∀ (ls : List String), ls ≠ [] →
    (∀ l ∈ ls, NoNl l) →
    (joinNlStr ls).data.count '\n' = ls.length - 1 := by
  intro ls
  induction ls with
  | nil =>
    intro h
    exact absurd rfl h
  | cons l ls ih =>
    intro _ h
    cases ls with
    | nil =>
      show l.data.count '\n' = 0
      exact List.count_eq_zero.mpr (h l (List.mem_cons_self _ _))
    | cons x rest =>
      have hd : (joinNlStr (l :: x :: rest)).data =
          (l.data ++ ['\n']) ++ (joinNlStr (x :: rest)).data := rfl
      rw [hd, List.count_append, List.count_append]
      rw [List.count_eq_zero.mpr (h l (List.mem_cons_self _ _))]
      rw [ih (by simp) (fun y hy => h y (List.mem_cons_of_mem l hy))]
      rw [show List.count '\n' ['\n'] = 1 from rfl]
      simp only [List.length_cons]
      omega

/-- Line count of a join of newline-free lines. -/
theorem lineCountStr_joinNl (ls : List String) (hne : ls ≠ [])
    (h : ∀ l ∈ ls, NoNl l) : lineCountStr (joinNlStr ls) = ls.length := by
  rw [lineCountStr, count_nl_joinNl ls hne h]
  have := List.length_pos.mpr hne
  omega

/-- A frame that fits the budget has at most `L` display lines. -/
theorem lineCount_of_FrameFits (L : Int) (f : String) (h : FrameFits L f) :
    (lineCountStr f : Int) ≤ L := by
  obtain ⟨ls, hne, he, hnl, hlen⟩ := h
  subst he
  rw [lineCountStr_joinNl ls hne hnl]
  exact hlen

/-- Closing the final buffer and applying the non-empty guard keeps every
frame within the line budget. -/
theorem finalize_fits (L : Int) (hL : 1 ≤ L) (st : PagState)
    (hinv : PagInv L st) (f : String)
    (hf : f ∈ (if (if st.2.1 ≠ [] then st.1 ++ [joinNlStr st.2.1] else st.1) = []
               then [""]
               else (if st.2.1 ≠ [] then st.1 ++ [joinNlStr st.2.1]
                     else st.1))) :
    (lineCountStr f : Int) ≤ L := by
  obtain ⟨hc, hlen, hcur, hfr⟩ := hinv
  have hone : ((lineCountStr "" : Nat) : Int) ≤ L := by
    show ((1 : Nat) : Int) ≤ L
    simpa using hL
  split at hf
  · rename_i hcne
    split at hf
    · rename_i hemp
      exact absurd hemp (by simp)
    · rcases List.mem_append.mp hf with h1 | h1
      · exact lineCount_of_FrameFits L f (hfr f h1)
      · have he : f = joinNlStr st.2.1 := List.mem_singleton.mp h1
        subst he
        exact lineCount_of_FrameFits L _ ⟨st.2.1, hcne, rfl, hcur, hlen⟩
  · split at hf
    · have he := List.mem_singleton.mp hf
      subst he
      exact hone
    · exact lineCount_of_FrameFits L f (hfr f hf)

/-- Claim C7: every frame produced by pagination, spacer lines included, has
at most `lines_per_frame` lines, for every configuration built by the
constructor. -/
theorem c7_frame_line_budget (fs w h : Int) (ce : Bool)
    (g : TextToVideoGenerator) (hg : tvInit fs w h ce = some g)
    (cw : Char → Nat) (text : String) :
    ∀ f ∈ split_text_into_frames g cw text,
      (lineCountStr f : Int) ≤ g.lines_per_frame := by
  have hL : 1 ≤ g.lines_per_frame := tvInit_lines_ge_one fs w h ce g hg
  intro f hf
  rw [split_text_into_frames] at hf
  by_cases h0 : pyStripStr text = ""
  · rw [if_pos h0] at hf
    have he := List.mem_singleton.mp hf
    subst he
    show ((1 : Nat) : Int) ≤ g.lines_per_frame
    simpa using hL
  · rw [if_neg h0] at hf
    refine finalize_fits g.lines_per_frame hL _
      (foldl_addPara_inv7 cw g.chars_per_line g.lines_per_frame hL _
        ([], [], 0) ⟨rfl, ?_, ?_, ?_⟩) f hf
    · show ((List.length ([] : List String) : Nat) : Int) ≤ g.lines_per_frame
      simp only [List.length_nil, Nat.cast_zero]
      omega
    · intro l hl
      exact absurd hl (List.not_mem_nil l)
    · intro f2 hf2
      exact absurd hf2 (List.not_mem_nil f2)

/-- Witness for C7 at the default configuration and a one-word text. -/
theorem c7_frame_line_budget_witness :
    (lineCountStr ("hello" ++ "\n") : Int) ≤ defaultGen.lines_per_frame :=
  c7_frame_line_budget 32 1920 1080 true defaultGen (by decide) pyCharWidth
    "hello" ("hello" ++ "\n") (by decide)

/-! ## C10: blank lines in frames are only paragraph spacers -/

/-- After `frameAddLine`, the buffer always ends with the line just added. -/
theorem frameAddLine_getLast (L : Int) (st : PagState) (line : String) :
    (frameAddLine L st line).2.1.getLast? = some line := by
  rw [frameAddLine_eq]
  split
  · simp
  · exact List.getLast?_concat _

/-- After the inner line loop, the buffer ends with the last fed line. -/
theorem foldl_addLine_getLast (L : Int) :
    ∀ (lines : List String) (st : PagState) (l : String),
      lines.getLast? = some l →
      (lines.foldl (frameAddLine L) st).2.1.getLast? = some l := by
  intro lines
  induction lines with
  | nil =>
    intro st l h
    exact absurd h (by simp)
  | cons x xs ih =>
    intro st l h
    rw [List.foldl_cons]
    cases xs with
    | nil =>
      have he : x = l := by simpa using h
      subst he
      exact frameAddLine_getLast L st x
    | cons y ys =>
      have h2 : (y :: ys).getLast? = some l := by
        rwa [List.getLast?_cons_cons] at h
      exact ih _ l h2

/-- `frameAddLine` preserves the blank-line-structure invariant when fed a
non-blank, newline-free line. -/
theorem frameAddLine_invShape (L : Int) (st : PagState) (line : String)
    (hinv : PagShapeInv st) (hline : line ≠ "") (hnl : NoNl line) :
    PagShapeInv (frameAddLine L st line) := by
  obtain ⟨hhead, hchain, hnls, hfr⟩ := hinv
  rw [frameAddLine_eq]
  split
  · rename_i hC
    refine ⟨?_, List.chain'_singleton line, ?_, ?_⟩
    · simp [hline]
    · intro l hl
      have he := List.mem_singleton.mp hl
      subst he
      exact hnl
    · intro f hf
      rcases List.mem_append.mp hf with h1 | h1
      · exact hfr f h1
      · have he := List.mem_singleton.mp h1
        subst he
        exact ⟨st.2.1, hC.2, rfl, hnls, hhead, hchain⟩
  · refine ⟨?_, ?_, ?_, hfr⟩
    · cases hq : st.2.1 with
      | nil => simp [hline]
      | cons a as =>
        rw [hq] at hhead
        simpa using hhead
    · rw [List.chain'_append]
      refine ⟨hchain, List.chain'_singleton line, ?_⟩
      intro x _ y hy
      have he : line = y := by simpa using hy
      subst he
      exact fun hc => hline hc.2
    · intro l hl
      rcases List.mem_append.mp hl with h1 | h1
      · exact hnls l h1
      · have he := List.mem_singleton.mp h1
        subst he
        exact hnl

/-- The inner line loop preserves the blank-line-structure invariant. -/
theorem foldl_addLine_invShape (L : Int) :
    ∀ (lines : List String) (st : PagState), PagShapeInv st →
      (∀ l ∈ lines, l ≠ "" ∧ NoNl l) →
      PagShapeInv (lines.foldl (frameAddLine L) st) := by
  intro lines
  induction lines with
  | nil =>
    intro st h _
    exact h
  | cons l ls ih =>
    intro st h hl
    rw [List.foldl_cons]
    exact ih _ (frameAddLine_invShape L st l h
        (hl l (List.mem_cons_self _ _)).1 (hl l (List.mem_cons_self _ _)).2)
      (fun x hx => hl x (List.mem_cons_of_mem l hx))

/-- `frameAddPara` preserves the blank-line-structure invariant: the blank
spacer is appended right after the paragraph's last wrapped line, which is
non-blank. -/
theorem frameAddPara_invShape (cw : Char → Nat) (width L : Int)
    (st : PagState) (p : String) (hinv : PagShapeInv st)
    (hp : pySplitWsStr p ≠ []) :
    PagShapeInv (frameAddPara cw width L st p) := by
  have hlines := wrap_lines_ok cw p width
  have hwlne := wrap_ne_nil cw p width hp
  obtain ⟨llast, hlastsome⟩ :
      ∃ l, (wrap_text_with_emoji_support cw p width).getLast? = some l := by
    cases hq : (wrap_text_with_emoji_support cw p width).getLast? with
    | none => exact absurd (List.getLast?_eq_none_iff.mp hq) hwlne
    | some l => exact ⟨l, rfl⟩
  have hlastmem := List.mem_of_getLast?_eq_some hlastsome
  rw [frameAddPara]
  set st2 := (wrap_text_with_emoji_support cw p width).foldl (frameAddLine L) st
    with hst2
  have h2 : PagShapeInv st2 :=
    foldl_addLine_invShape L _ st hinv (fun l hl => hlines l hl)
  have hcurlast : st2.2.1.getLast? = some llast :=
    foldl_addLine_getLast L _ st llast hlastsome
  obtain ⟨hhead, hchain, hnls, hfr⟩ := h2
  split
  · refine ⟨?_, ?_, ?_, hfr⟩
    · have hne : st2.2.1 ≠ [] := by
        intro he
        rw [he] at hcurlast
        exact Option.noConfusion hcurlast
      cases hq : st2.2.1 with
      | nil => exact absurd hq hne
      | cons a as =>
        rw [hq] at hhead
        simpa using hhead
    · rw [List.chain'_append]
      refine ⟨hchain, List.chain'_singleton _, ?_⟩
      intro x hx y hy
      have hy2 : ("" : String) = y := by simpa using hy
      subst hy2
      have hx2 : llast = x := by
        rw [hcurlast] at hx
        exact Option.some.inj hx
      subst hx2
      exact fun hc => (hlines llast hlastmem).1 hc.1
    · intro l hl
      rcases List.mem_append.mp hl with h1 | h1
      · exact hnls l h1
      · have he := List.mem_singleton.mp h1
        subst he
        exact noNl_empty
  · exact ⟨hhead, hchain, hnls, hfr⟩

/-- After a paragraph with at least one word, the buffer is non-empty. -/
theorem frameAddPara_cur_ne (cw : Char → Nat) (width L : Int) (st : PagState)
    (p : String) (hp : pySplitWsStr p ≠ []) :
    (frameAddPara cw width L st p).2.1 ≠ [] := by
  have hwlne := wrap_ne_nil cw p width hp
  obtain ⟨llast, hlastsome⟩ :
      ∃ l, (wrap_text_with_emoji_support cw p width).getLast? = some l := by
    cases hq : (wrap_text_with_emoji_support cw p width).getLast? with
    | none => exact absurd (List.getLast?_eq_none_iff.mp hq) hwlne
    | some l => exact ⟨l, rfl⟩
  rw [frameAddPara]
  set st2 := (wrap_text_with_emoji_support cw p width).foldl (frameAddLine L) st
    with hst2
  have hcurlast : st2.2.1.getLast? = some llast :=
    foldl_addLine_getLast L _ st llast hlastsome
  have hne : st2.2.1 ≠ [] := by
    intro he
    rw [he] at hcurlast
    exact Option.noConfusion hcurlast
  split
  · simp
  · exact hne

/-- The paragraph loop preserves the blank-line-structure invariant. -/
theorem foldl_addPara_invShape (cw : Char → Nat) (width L : Int) :
    ∀ (ps : List String) (st : PagState), PagShapeInv st →
      (∀ p ∈ ps, pySplitWsStr p ≠ []) →
      PagShapeInv (ps.foldl (frameAddPara cw width L) st) := by
  intro ps
  induction ps with
  | nil =>
    intro st h _
    exact h
  | cons p rest ih =>
    intro st h hw
    rw [List.foldl_cons]
    exact ih _ (frameAddPara_invShape cw width L st p h
      (hw p (List.mem_cons_self _ _)))
      (fun q hq => hw q (List.mem_cons_of_mem p hq))

/-- After a non-empty paragraph list, the buffer is non-empty. -/
theorem foldl_addPara_cur_ne (cw : Char → Nat) (width L : Int) :
    ∀ (ps : List String) (st : PagState), ps ≠ [] →
      (∀ p ∈ ps, pySplitWsStr p ≠ []) →
      (ps.foldl (frameAddPara cw width L) st).2.1 ≠ [] := by
  intro ps
  induction ps with
  | nil =>
    intro st h _
    exact absurd rfl h
  | cons p rest ih =>
    intro st _ hw
    rw [List.foldl_cons]
    by_cases hrest : rest = []
    · subst hrest
      exact frameAddPara_cur_ne cw width L st p (hw p (List.mem_cons_self _ _))
    · exact ih _ hrest (fun q hq => hw q (List.mem_cons_of_mem p hq))

/-- `split()` of a list with a non-empty accumulator yields some word. -/
theorem splitWsGo_ne_nil : ∀ (l acc : List Char), acc ≠ [] →
    splitWsGo acc l ≠ [] := by
  intro l
  induction l with
  | nil =>
    intro acc h
    rw [show splitWsGo acc [] = if acc = [] then [] else [acc.reverse]
      from rfl]
    rw [if_neg h]
    simp
  | cons c cs ih =>
    intro acc h
    rw [show splitWsGo acc (c :: cs) =
        if isPySpace c = true then
          (if acc = [] then splitWsGo [] cs
           else acc.reverse :: splitWsGo [] cs)
        else splitWsGo (c :: acc) cs from rfl]
    by_cases hsp : isPySpace c = true
    · rw [if_pos hsp, if_neg h]
      simp
    · rw [if_neg hsp]
      exact ih (c :: acc) (by simp)

/-- A string whose first character is not whitespace splits into at least one
word. -/
theorem pySplitWs_ne_nil_of_head (s : String) (c : Char)
    (hhead : s.data.head? = some c) (hsp : isPySpace c = false) :
    pySplitWsStr s ≠ [] := by
  rw [pySplitWsStr]
  cases hd : s.data with
  | nil =>
    rw [hd] at hhead
    exact Option.noConfusion hhead
  | cons c0 cs =>
    rw [hd] at hhead
    have he : c0 = c := by simpa using hhead
    subst he
    rw [show splitWsGo [] (c0 :: cs) =
        if isPySpace c0 = true then
          (if ([] : List Char) = [] then splitWsGo [] cs
           else List.reverse ([] : List Char) :: splitWsGo [] cs)
        else splitWsGo [c0] cs from rfl]
    rw [if_neg (by rw [hsp]; exact Bool.noConfusion)]
    intro he2
    exact splitWsGo_ne_nil cs [c0] (by simp) (List.map_eq_nil_iff.mp he2)

/-- Every paragraph kept by the paginator splits into at least one word. -/
theorem paragraphs_words_ne (t2 : String) :
    ∀ p ∈ ((pySplitOnStr "\n\n" t2).map pyStripStr).filter
        (fun p => decide (p ≠ "")),
      pySplitWsStr p ≠ [] := by
  intro p hp
  rcases List.mem_filter.mp hp with ⟨hmem, hne⟩
  have hpne : p ≠ "" := of_decide_eq_true hne
  rcases List.mem_map.mp hmem with ⟨q, -, he⟩
  subst he
  cases hd : (pyStripStr q).data with
  | nil =>
    exact absurd (show pyStripStr q = "" from congrArg String.mk hd) hpne
  | cons c cs =>
    refine pySplitWs_ne_nil_of_head (pyStripStr q) c (by rw [hd]; rfl) ?_
    refine pyStripList_head_not_space q.data c ?_
    have h2 : pyStripList q.data = c :: cs := hd
    rw [h2]
    rfl

/-- `str.replace` preserves the presence of a non-whitespace character when
the replacement text has one. -/
theorem replaceGo_keeps_nonspace (p r : List Char)
    (hr : ∃ c ∈ r, isPySpace c = false) :
    ∀ (fuel : Nat) (s : List Char), (∃ c ∈ s, isPySpace c = false) →
      ∃ c ∈ replaceGo p r fuel s, isPySpace c = false := by
  intro fuel
  induction fuel with
  | zero =>
    intro s hs
    cases s with
    | nil => exact hs
    | cons c cs => exact hs
  | succ n ih =>
    intro s hs
    cases s with
    | nil => exact hs
    | cons c cs =>
      show ∃ x ∈ (if p ≠ [] ∧ p.isPrefixOf (c :: cs) then
          r ++ replaceGo p r n ((c :: cs).drop p.length)
        else c :: replaceGo p r n cs), isPySpace x = false
      split
      · rcases hr with ⟨b, hb, hbf⟩
        exact ⟨b, List.mem_append.mpr (Or.inl hb), hbf⟩
      · rcases hs with ⟨x, hx, hxf⟩
        rcases List.mem_cons.mp hx with he | hxm
        · subst he
          exact ⟨x, List.mem_cons_self _ _, hxf⟩
        · rcases ih cs ⟨x, hxm, hxf⟩ with ⟨y, hy, hyf⟩
          exact ⟨y, List.mem_cons_of_mem c hy, hyf⟩

/-- Symbol substitution preserves the presence of a non-whitespace character:
every replacement label contains one. -/
theorem foldl_replace_keeps_nonspace (m : List (String × String))
    (hm : ∀ e ∈ m, ∃ c ∈ (e.2 : String).data, isPySpace c = false) :
    ∀ s : String, (∃ c ∈ s.data, isPySpace c = false) →
      ∃ c ∈ (m.foldl (fun t e => pyReplace t e.1 e.2) s).data,
        isPySpace c = false := by
  induction m with
  | nil =>
    intro s hs
    exact hs
  | cons e rest ih =>
    intro s hs
    rw [List.foldl_cons]
    refine ih (fun x hx => hm x (List.mem_cons_of_mem e hx)) _ ?_
    exact replaceGo_keeps_nonspace e.1.data e.2.data
      (hm e (List.mem_cons_self e rest)) s.data.length s.data hs

/-- `convert_emojis_to_text` preserves the presence of a non-whitespace
character. -/
theorem convert_keeps_nonspace (s : String)
    (hs : ∃ c ∈ s.data, isPySpace c = false) :
    ∃ c ∈ (convert_emojis_to_text s).data, isPySpace c = false :=
  foldl_replace_keeps_nonspace emojiMap (by decide) s hs

/-- An element that fails the predicate survives `dropWhile`. -/
theorem mem_dropWhile_of_not {α : Type} (p : α → Bool) (l : List α) (x : α)
    (hx : x ∈ l) (hpx : p x = false) : x ∈ l.dropWhile p := by
  rw [← List.takeWhile_append_dropWhile p l] at hx
  rcases List.mem_append.mp hx with h1 | h1
  · have := List.mem_takeWhile_imp h1
    rw [hpx] at this
    exact Bool.noConfusion this
  · exact h1

/-- A non-whitespace character survives stripping. -/
theorem mem_pyStripList_of_nonspace (l : List Char) (x : Char) (hx : x ∈ l)
    (hsp : isPySpace x = false) : x ∈ pyStripList l := by
  unfold pyStripList
  rw [List.mem_reverse]
  refine mem_dropWhile_of_not _ _ _ ?_ hsp
  rw [List.mem_reverse]
  exact mem_dropWhile_of_not _ _ _ hx hsp

/-- Every character outside the separator lands in some piece of the split. -/
theorem splitOnGo_mem_piece (sep : List Char) :
    ∀ (fuel : Nat) (acc s : List Char) (x : Char),
      (x ∈ acc ∨ x ∈ s) → x ∉ sep →
      ∃ piece ∈ splitOnGo sep fuel acc s, x ∈ piece := by
  intro fuel
  induction fuel with
  | zero =>
    intro acc s x hx _
    cases s with
    | nil =>
      refine ⟨acc.reverse, List.mem_singleton.mpr rfl, ?_⟩
      rcases hx with h | h
      · exact List.mem_reverse.mpr h
      · exact absurd h (List.not_mem_nil x)
    | cons c cs =>
      refine ⟨acc.reverse ++ (c :: cs), List.mem_singleton.mpr rfl, ?_⟩
      rcases hx with h | h
      · exact List.mem_append.mpr (Or.inl (List.mem_reverse.mpr h))
      · exact List.mem_append.mpr (Or.inr h)
  | succ n ih =>
    intro acc s x hx hsep
    cases s with
    | nil =>
      refine ⟨acc.reverse, List.mem_singleton.mpr rfl, ?_⟩
      rcases hx with h | h
      · exact List.mem_reverse.mpr h
      · exact absurd h (List.not_mem_nil x)
    | cons c cs =>
      show ∃ piece ∈ (if sep ≠ [] ∧ sep.isPrefixOf (c :: cs) then
          acc.reverse :: splitOnGo sep n [] ((c :: cs).drop sep.length)
        else splitOnGo sep n (c :: acc) cs), x ∈ piece
      split
      · rename_i hC
        rcases hx with h | h
        · exact ⟨acc.reverse, List.mem_cons_self _ _, List.mem_reverse.mpr h⟩
        · obtain ⟨t, ht⟩ := List.isPrefixOf_iff_prefix.mp hC.2
          have hdrop : (c :: cs).drop sep.length = t := by
            rw [← ht]
            exact List.drop_left sep t
          have hx2 : x ∈ sep ++ t := by
            rw [ht]
            exact h
          rcases List.mem_append.mp hx2 with h2 | h2
          · exact absurd h2 hsep
          · rcases ih [] ((c :: cs).drop sep.length) x
              (Or.inr (by rw [hdrop]; exact h2)) hsep with ⟨piece, hpm, hpx⟩
            exact ⟨piece, List.mem_cons_of_mem _ hpm, hpx⟩
      · rcases hx with h | h
        · exact ih (c :: acc) cs x (Or.inl (List.mem_cons_of_mem c h)) hsep
        · rcases List.mem_cons.mp h with he | hm
          · subst he
            exact ih (x :: acc) cs x (Or.inl (List.mem_cons_self x acc)) hsep
          · exact ih (c :: acc) cs x (Or.inr hm) hsep

/-- String-level piece membership for `split("\n\n")`. -/
theorem pySplitOn_mem_piece (t2 : String) (x : Char) (hx : x ∈ t2.data)
    (hsep : x ∉ ("\n\n" : String).data) :
    ∃ q ∈ pySplitOnStr "\n\n" t2, x ∈ q.data := by
  rcases splitOnGo_mem_piece ("\n\n" : String).data t2.data.length []
      t2.data x (Or.inr hx) hsep with ⟨piece, hpm, hpx⟩
  exact ⟨String.mk piece, List.mem_map_of_mem String.mk hpm, hpx⟩

/-- A stripped non-empty string has a non-whitespace character. -/
theorem strip_has_nonspace (text : String) (h0 : pyStripStr text ≠ "") :
    ∃ c ∈ (pyStripStr text).data, isPySpace c = false := by
  cases hd : (pyStripStr text).data with
  | nil => exact absurd (show pyStripStr text = "" from congrArg String.mk hd) h0
  | cons c cs =>
    refine ⟨c, List.mem_cons_self _ _, ?_⟩
    refine pyStripList_head_not_space text.data c ?_
    have h2 : pyStripList text.data = c :: cs := hd
    rw [h2]
    rfl

/-- When the cleaned text has a non-whitespace character, the paginator keeps
at least one paragraph. -/
theorem paragraphs_ne_nil (t2 : String)
    (h : ∃ c ∈ t2.data, isPySpace c = false) :
    ((pySplitOnStr "\n\n" t2).map pyStripStr).filter
      (fun p => decide (p ≠ "")) ≠ [] := by
  rcases h with ⟨x, hx, hxf⟩
  have hxsep : x ∉ ("\n\n" : String).data := by
    intro hm
    have he : x = '\n' := by
      rcases List.mem_cons.mp hm with h1 | h1
      · exact h1
      · exact List.mem_singleton.mp h1
    rw [he] at hxf
    exact absurd hxf (by decide)
  rcases pySplitOn_mem_piece t2 x hx hxsep with ⟨q, hq, hxq⟩
  have hps : pyStripStr q ≠ "" := by
    refine string_ne_empty_of_data _ ?_
    intro h0
    have hmem : x ∈ pyStripList q.data :=
      mem_pyStripList_of_nonspace q.data x hxq hxf
    rw [show pyStripList q.data = (pyStripStr q).data from rfl, h0] at hmem
    exact absurd hmem (List.not_mem_nil x)
  refine List.ne_nil_of_mem (a := pyStripStr q) ?_
  rw [List.mem_filter]
  exact ⟨List.mem_map_of_mem pyStripStr hq, decide_eq_true hps⟩

/-- Closing the final buffer and applying the non-empty guard keeps the frame
shape, provided the buffer is non-empty. -/
theorem finalize_shape (st : PagState) (hinv : PagShapeInv st)
    (hcur : st.2.1 ≠ []) (f : String)
    (hf : f ∈ (if (if st.2.1 ≠ [] then st.1 ++ [joinNlStr st.2.1] else st.1) = []
               then [""]
               else (if st.2.1 ≠ [] then st.1 ++ [joinNlStr st.2.1]
                     else st.1))) :
    FrameShape f := by
  obtain ⟨hhead, hchain, hnls, hfr⟩ := hinv
  rw [if_pos hcur] at hf
  rw [if_neg (by simp : ¬(st.1 ++ [joinNlStr st.2.1] = []))] at hf
  rcases List.mem_append.mp hf with h1 | h1
  · exact hfr f h1
  · have he := List.mem_singleton.mp h1
    subst he
    exact ⟨st.2.1, hcur, rfl, hnls, hhead, hchain⟩

/-- Claim C10 as amended: for every input whose cleaned text is non-blank,
every frame is a newline-join of newline-free lines whose first line is
non-blank and in which no two blank lines are adjacent — every blank line is
a paragraph spacer sitting below a non-blank wrapped line. -/
theorem c10_amended_blank_line_structure (g : TextToVideoGenerator)
    (cw : Char → Nat) (text : String) (h0 : pyStripStr text ≠ "") :
    (∀ f ∈ split_text_into_frames g cw text, FrameShape f) ∧
    (∀ (p : String) (width : Int),
      ∀ l ∈ wrap_text_with_emoji_support cw p width, l ≠ "") := by
  refine ⟨?_, fun p width l hl => (wrap_lines_ok cw p width l hl).1⟩
  intro f hf
  rw [split_text_into_frames] at hf
  rw [if_neg h0] at hf
  have hnsp : ∃ c ∈ (if g.convert_emojis = true then
      convert_emojis_to_text (pyStripStr text) else pyStripStr text).data,
      isPySpace c = false := by
    split
    · exact convert_keeps_nonspace _ (strip_has_nonspace text h0)
    · exact strip_has_nonspace text h0
  have hpars := paragraphs_words_ne (if g.convert_emojis = true then
    convert_emojis_to_text (pyStripStr text) else pyStripStr text)
  have hparsne := paragraphs_ne_nil (if g.convert_emojis = true then
    convert_emojis_to_text (pyStripStr text) else pyStripStr text) hnsp
  refine finalize_shape _
    (foldl_addPara_invShape cw g.chars_per_line g.lines_per_frame _
      ([], [], 0) ⟨?_, List.chain'_nil, ?_, ?_⟩ hpars)
    (foldl_addPara_cur_ne cw g.chars_per_line g.lines_per_frame _
      ([], [], 0) hparsne hpars) f hf
  · simp
  · intro l hl
    exact absurd hl (List.not_mem_nil l)
  · intro f2 hf2
    exact absurd hf2 (List.not_mem_nil f2)

/-- Witness for the amended C10 on a concrete input. -/
theorem c10_amended_blank_line_structure_witness :
    FrameShape ("hello" ++ "\n") :=
  (c10_amended_blank_line_structure defaultGen pyCharWidth "hello"
    (by decide)).1 ("hello" ++ "\n") (by decide)

/-- Claim C10 counterexample: for blank input the paginator returns the
single frame `""`, whose only — and hence first — line is blank. -/
theorem c10_counterexample_blank_input :
    split_text_into_frames defaultGen pyCharWidth "" = [""] ∧
    (pySplitOnStr "\n" "").head? = some "" := by
  exact ⟨by decide, by decide⟩
